import Mathlib

/-
Verification of the tomography helper layer: partition construction,
the Elekta Icon geometry/space/reconstruction presets, and the contracts
of the ray-transform operator pair (forward projection and adjoint).

Exact quantities are modelled over ℚ; the line-integral scenario is
modelled over ℝ.  Fallible constructions return `Except FailureKind _`.
-/

namespace OdlSpec

/-- Kinds of failure surfaced by the system.  `assertionFailure` stands for a
bare Python `assert` (an untyped `AssertionError` carrying no parameter
information); the remaining constructors stand for the typed error classes of
the error-handling design (`InvalidRangeError`, `InvalidGeometryError`,
`NotImplementedError`). -/
inductive FailureKind where
  | assertionFailure
  | invalidRange
  | invalidGeometry
  | notImplemented
deriving DecidableEq, Repr

/-- A 1D partition: ordered sample points together with cell boundaries. -/
structure Partition1D where
  points : List ℚ
  boundaries : List ℚ
deriving DecidableEq, Repr

/-- Modelled from the spec: boundary placement of `odl.nonuniform_partition`
(absent from src).  Boundaries are midpoints between consecutive samples,
with the two outer boundaries extrapolated by half the adjacent spacing. -/
def midBoundaries (pts : List ℚ) : List ℚ :=
  (List.range (pts.length + 1)).map fun i =>
    if i = 0 then
      pts.getD 0 0 - (pts.getD 1 0 - pts.getD 0 0) / 2
    else if i = pts.length then
      pts.getD (i - 1) 0 + (pts.getD (i - 1) 0 - pts.getD (i - 2) 0) / 2
    else
      (pts.getD (i - 1) 0 + pts.getD i 0) / 2

/-- Modelled from the spec: `odl.nonuniform_partition` (absent from src).
Accepts a strictly increasing sequence of at least 2 points and infers
midpoint-rule boundaries; fails with `InvalidRangeError` on fewer than
2 points or a non-increasing sequence. -/
def nonuniform_partition (pts : List ℚ) : Except FailureKind Partition1D :=
  if pts.length < 2 then .error .invalidRange
  else if ¬ pts.Chain' (· < ·) then .error .invalidRange
  else .ok ⟨pts, midBoundaries pts⟩

/-- A uniform 2D partition: rectangular physical extent and pixel shape. -/
structure UniformPartition2D where
  minPt : ℚ × ℚ
  maxPt : ℚ × ℚ
  shape : ℕ × ℕ
deriving DecidableEq, Repr

/-- Modelled from the spec: `odl.uniform_partition` on a 2D box (absent from
src).  Fails with `InvalidRangeError` when `min_pt ≥ max_pt` on some axis or
a sample count is zero. -/
def mkUniformPartition2D (minPt maxPt : ℚ × ℚ) (shape : ℕ × ℕ) :
    Except FailureKind UniformPartition2D :=
  if minPt.1 < maxPt.1 ∧ minPt.2 < maxPt.2 ∧ 0 < shape.1 ∧ 0 < shape.2 then
    .ok ⟨minPt, maxPt, shape⟩
  else .error .invalidRange

/-- Circular cone-beam geometry with a flat 2D detector. -/
structure CircularConeFlatGeometry where
  anglePartition : Partition1D
  detectorPartition : UniformPartition2D
  srcRadius : ℚ
  detRadius : ℚ
  axis : ℚ × ℚ × ℚ
deriving DecidableEq, Repr

/-- Modelled from the spec: the `odl.tomo.CircularConeFlatGeometry`
constructor (absent from src).  Construction validates `src_radius > 0` for
divergent kinds, failing with `InvalidGeometryError`. -/
def mkCircularConeFlatGeometry (apart : Partition1D) (dpart : UniformPartition2D)
    (src_radius det_radius : ℚ) (axis : ℚ × ℚ × ℚ) :
    Except FailureKind CircularConeFlatGeometry :=
  if 0 < src_radius then
    .ok ⟨apart, dpart, src_radius, det_radius, axis⟩
  else .error .invalidGeometry

/-- Tomographic geometry of the Elekta Icon CBCT system, translated from
`elekta_icon_geometry` in `src/odl/contrib/tomo/elekta.py`.  The Python
`assert` statements surface as `assertionFailure`; the partition and geometry
constructors contribute their own (typed) failures. -/
def elekta_icon_geometry (sad sdd : ℚ) (piercing_point : List ℚ)
    (angles : List ℚ) (detector_shape : ℕ × ℕ) :
    Except FailureKind CircularConeFlatGeometry :=
  if ¬ 0 < sad then .error .assertionFailure
  else if ¬ sad < sdd then .error .assertionFailure
  else if piercing_point.length ≠ 2 then .error .assertionFailure
  else
    let pixel_size : ℚ := 368 / 1000
    let det_shape_mm : ℚ × ℚ := (28704 / 100, 26496 / 100)
    match nonuniform_partition angles with
    | .error e => .error e
    | .ok angle_partition =>
      let piercing_point_mm : ℚ × ℚ :=
        (pixel_size * piercing_point.getD 0 0, pixel_size * piercing_point.getD 1 0)
      let det_min_pt : ℚ × ℚ := (-piercing_point_mm.1, -piercing_point_mm.2)
      let det_max_pt : ℚ × ℚ :=
        (det_min_pt.1 + det_shape_mm.1, det_min_pt.2 + det_shape_mm.2)
      match mkUniformPartition2D det_min_pt det_max_pt detector_shape with
      | .error e => .error e
      | .ok detector_partition =>
        mkCircularConeFlatGeometry angle_partition detector_partition
          sad (sdd - sad) (0, 0, 1)

/-- Numeric element types of a discretized space. -/
inductive DType where
  | float32
  | float64
  | complex64
deriving DecidableEq, Repr

/-- A uniformly discretized function space: physical corners, shape, dtype. -/
structure DiscreteLp where
  minPt : List ℚ
  maxPt : List ℚ
  shape : List ℕ
  dtype : DType
deriving DecidableEq, Repr

/-- Modelled from the spec: `odl.uniform_discr` (absent from src), recording
corners, shape and element type of the discretized space. -/
def uniform_discr (minPt maxPt : List ℚ) (shape : List ℕ) (dtype : DType) :
    DiscreteLp :=
  ⟨minPt, maxPt, shape, dtype⟩

/-- Default reconstruction space for the Elekta Icon CBCT, translated from
`elekta_icon_space` in `src/odl/contrib/tomo/elekta.py`.  The keyword
arguments (modelled as string/value pairs) are accepted but not forwarded to
`uniform_discr`, exactly as in the source. -/
def elekta_icon_space (shape : List ℕ) (kwargs : List (String × ℚ)) :
    DiscreteLp :=
  uniform_discr [-112, -112, 0] [112, 112, 224] shape .float32

/-- Named frequency-filter windows of the FBP operator. -/
inductive FilterType where
  | ramLak
  | hann
  | hamming
  | sheppLogan
  | noFilter
deriving DecidableEq, Repr

/-- Operator expressions built by the reconstruction-operator builder, over an
abstract ray-transform type `R`.  `comp f g` is ODL's `f * g`: apply `g`
first, then `f`. -/
inductive TomoOp (R : Type) where
  | fbp (rt : R) (padding : Bool) (filter : FilterType) (frequency_scaling : ℚ)
  | parkerWeighting (rt : R)
  | comp (f g : TomoOp R)
deriving DecidableEq

/-- Semantics of the primitive operators on projection data of type `D`. -/
structure TomoSem (R D : Type) where
  fbpApply : R → Bool → FilterType → ℚ → D → D
  parkerApply : R → D → D

/-- Run an operator expression on data: `comp f g` applies `g` before `f`. -/
def TomoOp.run {R D : Type} (sem : TomoSem R D) : TomoOp R → D → D
  | .fbp rt p f s => sem.fbpApply rt p f s
  | .parkerWeighting rt => sem.parkerApply rt
  | .comp f g => fun d => (f.run sem) ((g.run sem) d)

/-- Approximation of the FDK reconstruction used in the Elekta Icon,
translated from `elekta_icon_reconstruction` in
`src/odl/contrib/tomo/elekta.py`:  `fbp_op` with `padding=False`,
`filter_type='Hann'`, `frequency_scaling=0.6`, pre-composed with Parker
weighting exactly when `parker_weighting` is true. -/
def elekta_icon_reconstruction {R : Type} (ray_transform : R)
    (parker_weighting : Bool) : TomoOp R :=
  let fbp_op : TomoOp R := .fbp ray_transform false .hann (6 / 10)
  if parker_weighting then .comp fbp_op (.parkerWeighting ray_transform)
  else fbp_op

lemma midBoundaries_length (pts : List ℚ) :
    (midBoundaries pts).length = pts.length + 1 := by
  simp [midBoundaries]

lemma midBoundaries_getD (pts : List ℚ) (i : ℕ) (h : i ≤ pts.length) :
    (midBoundaries pts).getD i 0 =
      if i = 0 then pts.getD 0 0 - (pts.getD 1 0 - pts.getD 0 0) / 2
      else if i = pts.length then
        pts.getD (i - 1) 0 + (pts.getD (i - 1) 0 - pts.getD (i - 2) 0) / 2
      else (pts.getD (i - 1) 0 + pts.getD i 0) / 2 := by
  have hi : i < (midBoundaries pts).length := by
    rw [midBoundaries_length]; omega
  rw [List.getD_eq_getElem _ _ hi]
  simp [midBoundaries]

/-- C4: `nonuniform_partition` fails with `InvalidRangeError` on the
non-increasing input `[1.0, 0.5]` and on fewer than 2 points; on every
strictly increasing input of at least 2 points it succeeds, with boundaries
at midpoints between consecutive samples and outer boundaries extrapolated by
half the adjacent spacing. -/
theorem nonuniform_partition_contract :
    nonuniform_partition [1, 1/2] = .error .invalidRange ∧
    (∀ pts : List ℚ, pts.length < 2 →
      nonuniform_partition pts = .error .invalidRange) ∧
    (∀ pts : List ℚ, ¬ pts.Chain' (· < ·) →
      nonuniform_partition pts = .error .invalidRange) ∧
    (∀ pts : List ℚ, 2 ≤ pts.length → pts.Chain' (· < ·) →
      ∃ P, nonuniform_partition pts = .ok P ∧ P.points = pts ∧
        P.boundaries.length = pts.length + 1 ∧
        P.boundaries.getD 0 0 =
          pts.getD 0 0 - (pts.getD 1 0 - pts.getD 0 0) / 2 ∧
        (∀ i, i + 1 < pts.length →
          P.boundaries.getD (i + 1) 0 = (pts.getD i 0 + pts.getD (i + 1) 0) / 2) ∧
        P.boundaries.getD pts.length 0 =
          pts.getD (pts.length - 1) 0 +
            (pts.getD (pts.length - 1) 0 - pts.getD (pts.length - 2) 0) / 2) := by
  have hmain : ∀ pts : List ℚ, ¬ pts.Chain' (· < ·) →
      nonuniform_partition pts = .error .invalidRange := by
    intro pts h
    by_cases h2 : pts.length < 2
    · rw [nonuniform_partition, if_pos h2]
    · rw [nonuniform_partition, if_neg h2, if_pos h]
  refine ⟨?_, ?_, hmain, ?_⟩
  · refine hmain [1, 1/2] ?_
    simp only [List.chain'_cons, List.chain'_singleton, and_true]
    norm_num
  · intro pts h
    rw [nonuniform_partition, if_pos h]
  · intro pts hlen hinc
    refine ⟨⟨pts, midBoundaries pts⟩, ?_, rfl, midBoundaries_length pts, ?_, ?_, ?_⟩
    · rw [nonuniform_partition, if_neg (by omega), if_neg (not_not_intro hinc)]
    · rw [midBoundaries_getD pts 0 (by omega)]
      simp
    · intro i hi
      rw [midBoundaries_getD pts (i + 1) (by omega)]
      have h1 : i + 1 ≠ 0 := by omega
      have h2 : i + 1 ≠ pts.length := by omega
      simp [h1, h2]
    · rw [midBoundaries_getD pts pts.length le_rfl]
      have h1 : pts.length ≠ 0 := by omega
      simp [h1]

/-- C4 witness: concrete instances for each guarded branch of the contract. -/
theorem nonuniform_partition_contract_witness :
    nonuniform_partition [(5 : ℚ)] = .error .invalidRange ∧
    nonuniform_partition [(3 : ℚ), 1, 2] = .error .invalidRange ∧
    ∃ P, nonuniform_partition [(0 : ℚ), 1, 3] = .ok P ∧ P.points = [0, 1, 3] := by
  refine ⟨nonuniform_partition_contract.2.1 [5] (by norm_num),
    nonuniform_partition_contract.2.2.1 [3, 1, 2]
      (by simp only [List.chain'_cons, List.chain'_singleton, and_true]; norm_num), ?_⟩
  obtain ⟨P, hP, hpts, -⟩ :=
    nonuniform_partition_contract.2.2.2 [(0 : ℚ), 1, 3] (by norm_num)
      (by simp only [List.chain'_cons, List.chain'_singleton, and_true]; norm_num)
  exact ⟨P, hP, hpts⟩

/-- C5 counterexample: calling `elekta_icon_geometry` with non-positive
`sad = -1` fails via the bare `assert` (an untyped `AssertionError`), which
is not the `InvalidGeometryError` class the claim requires. -/
theorem elekta_icon_geometry_assert_cex :
    elekta_icon_geometry (-1) 1000 [390, 0] [6/5, 5] (780, 720) =
      .error .assertionFailure ∧
    FailureKind.assertionFailure ≠ FailureKind.invalidGeometry := by
  refine ⟨?_, by simp⟩
  rw [elekta_icon_geometry, if_pos (by norm_num)]

/-- C5 (amended): all parameter validation is eager, at construction time;
the `elekta_icon_geometry` checks (`sad > 0`, `sdd > sad`, 2-vector piercing
point) fail via bare `assert` (untyped `AssertionError` that does not name
the parameter), while the divergent-geometry constructor rejects a
non-positive source radius with the typed `InvalidGeometryError`. -/
theorem elekta_icon_geometry_eager_validation :
    (∀ (sad sdd : ℚ) (pp angles : List ℚ) (dshape : ℕ × ℕ),
      (¬ 0 < sad ∨ ¬ sad < sdd ∨ pp.length ≠ 2) →
      elekta_icon_geometry sad sdd pp angles dshape = .error .assertionFailure) ∧
    (∀ (apart : Partition1D) (dpart : UniformPartition2D) (src det : ℚ)
      (axis : ℚ × ℚ × ℚ), ¬ 0 < src →
      mkCircularConeFlatGeometry apart dpart src det axis =
        .error .invalidGeometry) := by
  constructor
  · intro sad sdd pp angles dshape h
    by_cases h1 : 0 < sad
    · by_cases h2 : sad < sdd
      · have h3 : pp.length ≠ 2 := by tauto
        rw [elekta_icon_geometry, if_neg (not_not_intro h1),
          if_neg (not_not_intro h2), if_pos h3]
      · rw [elekta_icon_geometry, if_neg (not_not_intro h1), if_pos h2]
    · rw [elekta_icon_geometry, if_pos h1]
  · intro apart dpart src det axis h
    rw [mkCircularConeFlatGeometry, if_neg h]

/-- C5 witness: concrete failing constructions for both conjuncts. -/
theorem elekta_icon_geometry_eager_validation_witness :
    elekta_icon_geometry 780 700 [390, 0] [6/5, 5] (780, 720) =
      .error .assertionFailure ∧
    mkCircularConeFlatGeometry ⟨[], []⟩ ⟨(0, 0), (1, 1), (1, 1)⟩ 0 100 (0, 0, 1) =
      .error .invalidGeometry :=
  ⟨elekta_icon_geometry_eager_validation.1 780 700 [390, 0] [6/5, 5] (780, 720)
      (by norm_num),
    elekta_icon_geometry_eager_validation.2 ⟨[], []⟩ ⟨(0, 0), (1, 1), (1, 1)⟩
      0 100 (0, 0, 1) (by norm_num)⟩

lemma elekta_icon_geometry_eq_ok (sad sdd : ℚ) (pp angles : List ℚ)
    (dshape : ℕ × ℕ) (h1 : 0 < sad) (h2 : sad < sdd) (hpp : pp.length = 2)
    (ha : 2 ≤ angles.length) (hinc : angles.Chain' (· < ·))
    (hs1 : 0 < dshape.1) (hs2 : 0 < dshape.2) :
    elekta_icon_geometry sad sdd pp angles dshape = .ok
      { anglePartition := ⟨angles, midBoundaries angles⟩
        detectorPartition :=
          ⟨(-(368 / 1000 * pp.getD 0 0), -(368 / 1000 * pp.getD 1 0)),
           (-(368 / 1000 * pp.getD 0 0) + 28704 / 100,
            -(368 / 1000 * pp.getD 1 0) + 26496 / 100), dshape⟩
        srcRadius := sad
        detRadius := sdd - sad
        axis := (0, 0, 1) } := by
  have hnu : nonuniform_partition angles = .ok ⟨angles, midBoundaries angles⟩ := by
    rw [nonuniform_partition, if_neg (by omega), if_neg (not_not_intro hinc)]
  have hup : mkUniformPartition2D
      (-(368 / 1000 * pp.getD 0 0), -(368 / 1000 * pp.getD 1 0))
      (-(368 / 1000 * pp.getD 0 0) + 28704 / 100,
       -(368 / 1000 * pp.getD 1 0) + 26496 / 100) dshape = .ok
      ⟨(-(368 / 1000 * pp.getD 0 0), -(368 / 1000 * pp.getD 1 0)),
       (-(368 / 1000 * pp.getD 0 0) + 28704 / 100,
        -(368 / 1000 * pp.getD 1 0) + 26496 / 100), dshape⟩ := by
    rw [mkUniformPartition2D, if_pos]
    exact ⟨by norm_num, by norm_num, hs1, hs2⟩
  have hpp2 : ¬ pp.length ≠ 2 := by omega
  rw [elekta_icon_geometry, if_neg (not_not_intro h1), if_neg (not_not_intro h2),
    if_neg hpp2]
  simp only [hnu, hup]
  rw [mkCircularConeFlatGeometry, if_pos h1]

/-- C6: for every valid `sad` and `sdd` with `sdd > sad > 0`,
`elekta_icon_geometry` passes `src_radius = sad` and
`det_radius = sdd - sad` (the remaining source-to-detector distance beyond
the rotation axis) to the circular cone-beam geometry constructor. -/
theorem elekta_icon_geometry_radii (sad sdd : ℚ) (pp angles : List ℚ)
    (dshape : ℕ × ℕ) (h1 : 0 < sad) (h2 : sad < sdd) (hpp : pp.length = 2)
    (ha : 2 ≤ angles.length) (hinc : angles.Chain' (· < ·))
    (hs1 : 0 < dshape.1) (hs2 : 0 < dshape.2) :
    ∃ g, elekta_icon_geometry sad sdd pp angles dshape = .ok g ∧
      g.srcRadius = sad ∧ g.detRadius = sdd - sad := by
  exact ⟨_, elekta_icon_geometry_eq_ok sad sdd pp angles dshape
    h1 h2 hpp ha hinc hs1 hs2, rfl, rfl⟩

/-- C6 witness: the geometry at the documented default parameters
(`sad = 780`, `sdd = 1000`) carries `src_radius = 780` and
`det_radius = 220`. -/
theorem elekta_icon_geometry_radii_witness :
    ∃ g, elekta_icon_geometry 780 1000 [390, 0] [6/5, 5] (780, 720) = .ok g ∧
      g.srcRadius = 780 ∧ g.detRadius = 1000 - 780 :=
  elekta_icon_geometry_radii 780 1000 [390, 0] [6/5, 5] (780, 720)
    (by norm_num) (by norm_num) (by norm_num) (by norm_num)
    (by simp only [List.chain'_cons, List.chain'_singleton, and_true]; norm_num)
    (by norm_num) (by norm_num)

/-- C10: the detector partition built by `elekta_icon_geometry` has fixed
physical extent `(287.04, 264.96)` mm (pixel size `0.368` times the full
detector pixel counts `(780, 720)`), for every requested `detector_shape`;
the piercing point only translates the partition, the detector coordinate
origin lying `0.368 · piercing_point` above the minimum corner. -/
theorem elekta_icon_geometry_detector_extent (sad sdd : ℚ) (pp angles : List ℚ)
    (dshape : ℕ × ℕ) (h1 : 0 < sad) (h2 : sad < sdd) (hpp : pp.length = 2)
    (ha : 2 ≤ angles.length) (hinc : angles.Chain' (· < ·))
    (hs1 : 0 < dshape.1) (hs2 : 0 < dshape.2) :
    ∃ g, elekta_icon_geometry sad sdd pp angles dshape = .ok g ∧
      g.detectorPartition.maxPt.1 - g.detectorPartition.minPt.1 = 28704 / 100 ∧
      g.detectorPartition.maxPt.2 - g.detectorPartition.minPt.2 = 26496 / 100 ∧
      (28704 : ℚ) / 100 = (368 / 1000) * 780 ∧
      (26496 : ℚ) / 100 = (368 / 1000) * 720 ∧
      (0 : ℚ) - g.detectorPartition.minPt.1 = (368 / 1000) * pp.getD 0 0 ∧
      (0 : ℚ) - g.detectorPartition.minPt.2 = (368 / 1000) * pp.getD 1 0 ∧
      g.detectorPartition.shape = dshape := by
  refine ⟨_, elekta_icon_geometry_eq_ok sad sdd pp angles dshape
    h1 h2 hpp ha hinc hs1 hs2, by ring, by ring, by norm_num, by norm_num,
    by ring, by ring, rfl⟩

/-- C10 witness: the detector extent at concrete parameters, with a
sub-sampled `detector_shape = (390, 360)` differing from the default. -/
theorem elekta_icon_geometry_detector_extent_witness :
    ∃ g, elekta_icon_geometry 780 1000 [390, 0] [6/5, 5] (390, 360) = .ok g ∧
      g.detectorPartition.maxPt.1 - g.detectorPartition.minPt.1 = 28704 / 100 ∧
      g.detectorPartition.maxPt.2 - g.detectorPartition.minPt.2 = 26496 / 100 := by
  obtain ⟨g, hg, he1, he2, -⟩ :=
    elekta_icon_geometry_detector_extent 780 1000 [390, 0] [6/5, 5] (390, 360)
      (by norm_num) (by norm_num) (by norm_num) (by norm_num)
      (by simp only [List.chain'_cons, List.chain'_singleton, and_true]; norm_num)
      (by norm_num) (by norm_num)
  exact ⟨g, hg, he1, he2⟩

/-- C9: `elekta_icon_space` returns the space with fixed corners
`(-112, -112, 0)`–`(112, 112, 224)` and dtype `float32` for every shape and
every keyword-argument list; keyword arguments are silently ignored, so two
calls differing only in keyword arguments return equal spaces. -/
theorem elekta_icon_space_fixed (shape : List ℕ)
    (kw1 kw2 : List (String × ℚ)) :
    elekta_icon_space shape kw1 = elekta_icon_space shape kw2 ∧
    (elekta_icon_space shape kw1).minPt = [-112, -112, 0] ∧
    (elekta_icon_space shape kw1).maxPt = [112, 112, 224] ∧
    (elekta_icon_space shape kw1).dtype = .float32 ∧
    (elekta_icon_space shape kw1).shape = shape :=
  ⟨rfl, rfl, rfl, rfl, rfl⟩

/-- C8: `elekta_icon_reconstruction` builds the FBP operator with filter
window Hann, frequency scaling `0.6` and no padding; exactly when
`parker_weighting` is true it pre-composes with the Parker angular weighting,
so that on any projection data the weighting is applied before the
filtered-adjoint; when false the unweighted FBP operator is returned. -/
theorem elekta_icon_reconstruction_structure {R D : Type} (sem : TomoSem R D)
    (rt : R) (d : D) :
    elekta_icon_reconstruction rt true =
      .comp (.fbp rt false .hann (6 / 10)) (.parkerWeighting rt) ∧
    elekta_icon_reconstruction rt false = .fbp rt false .hann (6 / 10) ∧
    (elekta_icon_reconstruction rt true).run sem d =
      sem.fbpApply rt false .hann (6 / 10) (sem.parkerApply rt d) ∧
    (elekta_icon_reconstruction rt false).run sem d =
      sem.fbpApply rt false .hann (6 / 10) d :=
  ⟨rfl, rfl, rfl, rfl⟩

/-- Acquisition-trajectory kinds of the geometry family. -/
inductive GeomKind where
  | par2d
  | par3d
  | fan2d
  | cone3d
  | helical
deriving DecidableEq, Repr

/-- Modelled from the spec: the RayTransform operator (its implementation is
absent from src) as a linear operator between finite-dimensional volume and
projection spaces, given by the backend's kernel matrix. -/
structure RayTransform (m n : ℕ) where
  kernel : Matrix (Fin m) (Fin n) ℚ
  geometryKind : GeomKind

/-- Modelled from the spec: `RayTransform.apply` (absent from src), the
linear action of the backend kernel on a volume. -/
def RayTransform.apply {m n : ℕ} (T : RayTransform m n) (x : Fin n → ℚ) :
    Fin m → ℚ :=
  T.kernel.mulVec x

/-- Modelled from the spec: `RayTransform.adjoint` (absent from src), the
linear adjoint of `apply` (backprojection). -/
def RayTransform.adjoint {m n : ℕ} (T : RayTransform m n) (y : Fin m → ℚ) :
    Fin n → ℚ :=
  T.kernel.transpose.mulVec y

/-- Modelled from the spec: the inner product of the discretized real
spaces (absent from src). -/
def innerProd {k : ℕ} (u v : Fin k → ℚ) : ℚ := ∑ i, u i * v i

/-- Modelled from the spec: relative tolerance of the adjoint identity,
10% for helical geometries and 5% for the others. -/
def adjointRtol : GeomKind → ℚ
  | .helical => 1 / 10
  | _ => 1 / 20

/-- C1: for every RayTransform and all volumes `x` and projections `y` in
compatible spaces, `⟨apply x, y⟩` equals `⟨x, adjoint y⟩` — in the linear
model exactly, hence in particular within the claimed relative tolerance
(5% circular/fan, 10% helical). -/
theorem rayTransform_adjoint_identity {m n : ℕ} (T : RayTransform m n)
    (x : Fin n → ℚ) (y : Fin m → ℚ) :
    innerProd (T.apply x) y = innerProd x (T.adjoint y) ∧
    |innerProd (T.apply x) y - innerProd x (T.adjoint y)| ≤
      adjointRtol T.geometryKind * |innerProd (T.apply x) y| := by
  have key : innerProd (T.apply x) y = innerProd x (T.adjoint y) := by
    simp only [innerProd, RayTransform.apply, RayTransform.adjoint,
      Matrix.mulVec, Matrix.dotProduct, Matrix.transpose_apply,
      Finset.sum_mul, Finset.mul_sum]
    rw [Finset.sum_comm]
    refine Finset.sum_congr rfl fun j _ => Finset.sum_congr rfl fun i _ => by ring
  have htol : 0 ≤ adjointRtol T.geometryKind := by
    cases h : T.geometryKind <;> norm_num [adjointRtol]
  refine ⟨key, ?_⟩
  rw [key, sub_self, abs_zero]
  exact mul_nonneg htol (abs_nonneg _)

/-- Modelled from the spec: the complex-valued RayTransform as implemented —
decompose the input into real and imaginary parts, apply the real-valued
kernel to each independently, and recombine. -/
noncomputable def applyComplex {m n : ℕ} (A : Matrix (Fin m) (Fin n) ℝ) (x : Fin n → ℂ) :
    Fin m → ℂ :=
  fun i => (A.mulVec (fun j => (x j).re) i : ℝ) +
    (A.mulVec (fun j => (x j).im) i : ℝ) * Complex.I

/-- The complex-valued RayTransform stated from the spec's words: the ℂ-linear
operator whose kernel is the real backend kernel; refinement target for the
decomposition implementation. -/
noncomputable def applyComplexDirect {m n : ℕ} (A : Matrix (Fin m) (Fin n) ℝ)
    (x : Fin n → ℂ) : Fin m → ℂ :=
  (A.map (fun a => (a : ℂ))).mulVec x

/-- C2: applying the complex-valued RayTransform to `x = x_re + i·x_im`
equals `apply_real x_re + i · apply_real x_im` (the decomposition is exact in
the real-number model), and the same decomposition holds for the adjoint
(transposed kernel). -/
theorem rayTransform_complex_decomposition {m n : ℕ}
    (A : Matrix (Fin m) (Fin n) ℝ) (x : Fin n → ℂ) (y : Fin m → ℂ) :
    applyComplexDirect A x = applyComplex A x ∧
    (∀ i, (applyComplex A x i).re = A.mulVec (fun j => (x j).re) i) ∧
    (∀ i, (applyComplex A x i).im = A.mulVec (fun j => (x j).im) i) ∧
    applyComplexDirect A.transpose y = applyComplex A.transpose y := by
  have main : ∀ (p q : ℕ) (B : Matrix (Fin p) (Fin q) ℝ) (z : Fin q → ℂ),
      applyComplexDirect B z = applyComplex B z := by
    intro p q B z
    funext i
    apply Complex.ext
    · simp [applyComplexDirect, applyComplex, Matrix.mulVec, Matrix.dotProduct,
        Matrix.map_apply, Complex.re_sum]
    · simp [applyComplexDirect, applyComplex, Matrix.mulVec, Matrix.dotProduct,
        Matrix.map_apply, Complex.im_sum]
  refine ⟨main m n A x, fun i => ?_, fun i => ?_, main n m A.transpose y⟩
  · simp [applyComplex]
  · simp [applyComplex]

/-- Recognized backend implementations of the RayTransform. -/
inductive Backend where
  | astra_cpu
  | astra_cuda
  | skimage
deriving DecidableEq, Repr

/-- Modelled from the spec: the backend capability table (absent from src).
The CPU backend and the fallback image backend support only 2D parallel/fan
geometries, and the 2D backends require isotropic voxels; the accelerated
backend additionally supports the 3D kinds. -/
def backendSupports (b : Backend) (g : GeomKind) (isotropicVoxels : Bool) :
    Bool :=
  match b, g with
  | .astra_cpu, .par2d => isotropicVoxels
  | .astra_cpu, .fan2d => isotropicVoxels
  | .astra_cuda, .par2d => isotropicVoxels
  | .astra_cuda, .fan2d => isotropicVoxels
  | .astra_cuda, _ => true
  | .skimage, .par2d => isotropicVoxels
  | _, _ => false

/-- Modelled from the spec: a RayTransform together with its backend selector
and the voxel isotropy of its domain; apply-time support checks live here. -/
structure RayTransformImpl (m n : ℕ) where
  kernel : Matrix (Fin m) (Fin n) ℚ
  geometryKind : GeomKind
  backend : Backend
  isotropicVoxels : Bool

/-- Modelled from the spec: forward apply with the apply-time
backend-capability check (absent from src). -/
def RayTransformImpl.applyE {m n : ℕ} (T : RayTransformImpl m n)
    (x : Fin n → ℚ) : Except FailureKind (Fin m → ℚ) :=
  if backendSupports T.backend T.geometryKind T.isotropicVoxels then
    .ok (T.kernel.mulVec x)
  else .error .notImplemented

/-- Modelled from the spec: adjoint apply with the apply-time
backend-capability check (absent from src). -/
def RayTransformImpl.adjointE {m n : ℕ} (T : RayTransformImpl m n)
    (y : Fin m → ℚ) : Except FailureKind (Fin n → ℚ) :=
  if backendSupports T.backend T.geometryKind T.isotropicVoxels then
    .ok (T.kernel.transpose.mulVec y)
  else .error .notImplemented

/-- C7: for every RayTransform over an unsupported (geometry kind,
dimensionality/voxel, backend) combination, both the forward apply and the
adjoint apply fail at apply time with the `NotImplementedError` class; in
particular a 2D geometry with anisotropic voxels on the CPU backend is such
a combination. -/
theorem rayTransform_unsupported_not_implemented {m n : ℕ}
    (T : RayTransformImpl m n) (x : Fin n → ℚ) (y : Fin m → ℚ)
    (h : backendSupports T.backend T.geometryKind T.isotropicVoxels = false) :
    T.applyE x = .error .notImplemented ∧
    T.adjointE y = .error .notImplemented ∧
    backendSupports .astra_cpu .par2d false = false := by
  refine ⟨?_, ?_, rfl⟩
  · rw [RayTransformImpl.applyE, if_neg (by simp [h])]
  · rw [RayTransformImpl.adjointE, if_neg (by simp [h])]

/-- C7 witness: the 2D parallel geometry with anisotropic voxels on the CPU
backend fails with `NotImplementedError` in both directions. -/
theorem rayTransform_unsupported_not_implemented_witness :
    (⟨0, .par2d, .astra_cpu, false⟩ : RayTransformImpl 1 1).applyE
      (fun _ => 1) = .error .notImplemented ∧
    (⟨0, .par2d, .astra_cpu, false⟩ : RayTransformImpl 1 1).adjointE
      (fun _ => 2) = .error .notImplemented ∧
    backendSupports .astra_cpu .par2d false = false :=
  rayTransform_unsupported_not_implemented
    (⟨0, .par2d, .astra_cpu, false⟩ : RayTransformImpl 1 1)
    (fun _ => 1) (fun _ => 2) rfl

/-- Modelled from the spec: the sample angles of `odl.uniform_partition`
over `[0, π]` with 100 cells (absent from src) — the cell midpoints
`(k + 1/2)·π/100`. -/
noncomputable def thetaSample (k : ℕ) : ℝ := (2 * k + 1) * Real.pi / 200

/-- Modelled from the spec: the sample offsets of `odl.uniform_partition`
over `[-30, 30]` with 100 cells (absent from src) — the cell midpoints
`-30 + (j + 1/2)·0.6`. -/
noncomputable def sSample (j : ℕ) : ℝ := -30 + (2 * j + 1) * 3 / 10

/-- Modelled from the spec: the external backend's forward projection of the
constant-one volume on the square `[-20, 20]²` along the parallel-beam ray
with angle `θ` and signed detector offset `s`, i.e. the exact line integral
of the indicator of the square along the line
`t ↦ s·(cos θ, sin θ) + t·(-sin θ, cos θ)`.  The value is the length of the
parameter interval on which the line stays inside the square (valid whenever
`sin θ > 0`; see `chord_eq_volume`). -/
noncomputable def chord (θ s : ℝ) : ℝ :=
  let c := Real.cos θ
  let sn := Real.sin θ
  let lo1 := (s * c - 20) / sn
  let hi1 := (s * c + 20) / sn
  let p := (-20 - s * sn) / c
  let q := (20 - s * sn) / c
  max 0 (min hi1 (max p q) - max lo1 (min p q))

lemma mem_strip_iff (θ s t : ℝ) (hsn : 0 < Real.sin θ) (hc : Real.cos θ ≠ 0) :
    (|s * Real.cos θ - t * Real.sin θ| ≤ 20 ∧
      |s * Real.sin θ + t * Real.cos θ| ≤ 20) ↔
    (max ((s * Real.cos θ - 20) / Real.sin θ)
        (min ((-20 - s * Real.sin θ) / Real.cos θ)
          ((20 - s * Real.sin θ) / Real.cos θ)) ≤ t ∧
      t ≤ min ((s * Real.cos θ + 20) / Real.sin θ)
        (max ((-20 - s * Real.sin θ) / Real.cos θ)
          ((20 - s * Real.sin θ) / Real.cos θ))) := by
  rw [abs_le, abs_le, max_le_iff, le_min_iff]
  constructor
  · rintro ⟨⟨h1a, h1b⟩, h2a, h2b⟩
    refine ⟨⟨?_, ?_⟩, ?_, ?_⟩
    · rw [div_le_iff₀ hsn]; linarith
    · rcases hc.lt_or_lt with hneg | hpos
      · refine le_trans (min_le_right _ _) ?_
        rw [div_le_iff_of_neg hneg]; linarith
      · refine le_trans (min_le_left _ _) ?_
        rw [div_le_iff₀ hpos]; linarith
    · rw [le_div_iff₀ hsn]; linarith
    · rcases hc.lt_or_lt with hneg | hpos
      · refine le_trans ?_ (le_max_left _ _)
        rw [le_div_iff_of_neg hneg]; linarith
      · refine le_trans ?_ (le_max_right _ _)
        rw [le_div_iff₀ hpos]; linarith
  · rintro ⟨⟨h1a, h1b⟩, h2a, h2b⟩
    rw [div_le_iff₀ hsn] at h1a
    rw [le_div_iff₀ hsn] at h2a
    rcases hc.lt_or_lt with hneg | hpos
    · have hqp : (20 - s * Real.sin θ) / Real.cos θ ≤
          (-20 - s * Real.sin θ) / Real.cos θ := by
        rw [div_le_div_right_of_neg hneg]; linarith
      rw [min_eq_right hqp] at h1b
      rw [max_eq_left hqp] at h2b
      rw [div_le_iff_of_neg hneg] at h1b
      rw [le_div_iff_of_neg hneg] at h2b
      exact ⟨⟨by linarith, by linarith⟩, by linarith, by linarith⟩
    · have hpq : (-20 - s * Real.sin θ) / Real.cos θ ≤
          (20 - s * Real.sin θ) / Real.cos θ := by
        rw [div_le_div_iff_of_pos_right hpos]; linarith
      rw [min_eq_left hpq] at h1b
      rw [max_eq_right hpq] at h2b
      rw [div_le_iff₀ hpos] at h1b
      rw [le_div_iff₀ hpos] at h2b
      exact ⟨⟨by linarith, by linarith⟩, by linarith, by linarith⟩

lemma chord_eq_volume (θ s : ℝ) (hsn : 0 < Real.sin θ) (hc : Real.cos θ ≠ 0) :
    (MeasureTheory.volume {t : ℝ | |s * Real.cos θ - t * Real.sin θ| ≤ 20 ∧
      |s * Real.sin θ + t * Real.cos θ| ≤ 20}).toReal = chord θ s := by
  have hset : {t : ℝ | |s * Real.cos θ - t * Real.sin θ| ≤ 20 ∧
      |s * Real.sin θ + t * Real.cos θ| ≤ 20} =
      Set.Icc (max ((s * Real.cos θ - 20) / Real.sin θ)
        (min ((-20 - s * Real.sin θ) / Real.cos θ)
          ((20 - s * Real.sin θ) / Real.cos θ)))
        (min ((s * Real.cos θ + 20) / Real.sin θ)
          (max ((-20 - s * Real.sin θ) / Real.cos θ)
            ((20 - s * Real.sin θ) / Real.cos θ))) := by
    ext t
    exact mem_strip_iff θ s t hsn hc
  rw [hset, Real.volume_Icc, chord]
  rcases le_total
      (max ((s * Real.cos θ - 20) / Real.sin θ)
        (min ((-20 - s * Real.sin θ) / Real.cos θ)
          ((20 - s * Real.sin θ) / Real.cos θ)))
      (min ((s * Real.cos θ + 20) / Real.sin θ)
        (max ((-20 - s * Real.sin θ) / Real.cos θ)
          ((20 - s * Real.sin θ) / Real.cos θ))) with h | h
  · rw [ENNReal.toReal_ofReal (by linarith)]
    exact (max_eq_right (by linarith)).symm
  · rw [ENNReal.ofReal_eq_zero.mpr (by linarith), ENNReal.zero_toReal]
    exact (max_eq_left (by linarith)).symm

lemma chord_le_diag (θ s : ℝ) (hsn : 0 < Real.sin θ) (hc : Real.cos θ ≠ 0) :
    chord θ s ≤ 40 * Real.sqrt 2 := by
  have hcabs : 0 < |Real.cos θ| := abs_pos.mpr hc
  have hsqrt2 : Real.sqrt 2 ^ 2 = 2 := Real.sq_sqrt (by norm_num)
  have hsqrt2_pos : 0 < Real.sqrt 2 := Real.sqrt_pos.mpr (by norm_num)
  have hub1 : chord θ s ≤ 40 / Real.sin θ := by
    have hle : min ((s * Real.cos θ + 20) / Real.sin θ)
        (max ((-20 - s * Real.sin θ) / Real.cos θ)
          ((20 - s * Real.sin θ) / Real.cos θ)) -
        max ((s * Real.cos θ - 20) / Real.sin θ)
          (min ((-20 - s * Real.sin θ) / Real.cos θ)
            ((20 - s * Real.sin θ) / Real.cos θ)) ≤
        (s * Real.cos θ + 20) / Real.sin θ -
          (s * Real.cos θ - 20) / Real.sin θ :=
      sub_le_sub (min_le_left _ _) (le_max_left _ _)
    have heq : (s * Real.cos θ + 20) / Real.sin θ -
        (s * Real.cos θ - 20) / Real.sin θ = 40 / Real.sin θ := by
      field_simp
      ring
    rw [chord]
    refine max_le (by positivity) ?_
    rw [← heq]
    exact hle
  have hub2 : chord θ s ≤ 40 / |Real.cos θ| := by
    have hle : min ((s * Real.cos θ + 20) / Real.sin θ)
        (max ((-20 - s * Real.sin θ) / Real.cos θ)
          ((20 - s * Real.sin θ) / Real.cos θ)) -
        max ((s * Real.cos θ - 20) / Real.sin θ)
          (min ((-20 - s * Real.sin θ) / Real.cos θ)
            ((20 - s * Real.sin θ) / Real.cos θ)) ≤
        max ((-20 - s * Real.sin θ) / Real.cos θ)
          ((20 - s * Real.sin θ) / Real.cos θ) -
        min ((-20 - s * Real.sin θ) / Real.cos θ)
          ((20 - s * Real.sin θ) / Real.cos θ) :=
      sub_le_sub (min_le_right _ _) (le_max_right _ _)
    have heq : max ((-20 - s * Real.sin θ) / Real.cos θ)
          ((20 - s * Real.sin θ) / Real.cos θ) -
        min ((-20 - s * Real.sin θ) / Real.cos θ)
          ((20 - s * Real.sin θ) / Real.cos θ) = 40 / |Real.cos θ| := by
      rw [max_sub_min_eq_abs]
      have hd : (20 - s * Real.sin θ) / Real.cos θ -
          (-20 - s * Real.sin θ) / Real.cos θ = 40 / Real.cos θ := by
        field_simp
        norm_num
      rw [hd, abs_div, abs_of_nonneg (by norm_num : (0 : ℝ) ≤ 40)]
    rw [chord]
    refine max_le (by positivity) ?_
    rw [← heq]
    exact hle
  rcases le_total (Real.sin θ) |Real.cos θ| with hmax | hmax
  · have hM : 1 ≤ 2 * |Real.cos θ| ^ 2 := by
      have h1 : Real.sin θ ^ 2 + Real.cos θ ^ 2 = 1 := Real.sin_sq_add_cos_sq θ
      have h2 : Real.sin θ ^ 2 ≤ |Real.cos θ| ^ 2 :=
        pow_le_pow_left₀ (le_of_lt hsn) hmax 2
      rw [sq_abs] at h2 ⊢
      linarith
    have hfin : 40 / |Real.cos θ| ≤ 40 * Real.sqrt 2 := by
      rw [div_le_iff₀ hcabs]
      nlinarith [mul_pos hsqrt2_pos hcabs,
        sq_nonneg (Real.sqrt 2 * |Real.cos θ| - 1)]
    linarith [hub2]
  · have hM : 1 ≤ 2 * Real.sin θ ^ 2 := by
      have h1 : Real.sin θ ^ 2 + Real.cos θ ^ 2 = 1 := Real.sin_sq_add_cos_sq θ
      have h2 : Real.cos θ ^ 2 ≤ Real.sin θ ^ 2 := by
        rw [← sq_abs (Real.cos θ)]
        exact pow_le_pow_left₀ (abs_nonneg _) hmax 2
      linarith
    have hfin : 40 / Real.sin θ ≤ 40 * Real.sqrt 2 := by
      rw [div_le_iff₀ hsn]
      nlinarith [mul_pos hsqrt2_pos hsn,
        sq_nonneg (Real.sqrt 2 * Real.sin θ - 1)]
    linarith [hub1]

lemma thetaSample_pos (k : ℕ) : 0 < thetaSample k := by
  have hπ := Real.pi_pos
  rw [thetaSample]
  positivity

lemma thetaSample_lt_pi (k : ℕ) (hk : k < 100) : thetaSample k < Real.pi := by
  have h : (2 * (k : ℝ) + 1) < 200 := by
    exact_mod_cast (by omega : 2 * k + 1 < 200)
  have hprod : 0 < (200 - (2 * (k : ℝ) + 1)) * Real.pi :=
    mul_pos (by linarith) Real.pi_pos
  rw [thetaSample]
  nlinarith [Real.pi_pos]

lemma sin_thetaSample_pos (k : ℕ) (hk : k < 100) :
    0 < Real.sin (thetaSample k) :=
  Real.sin_pos_of_pos_of_lt_pi (thetaSample_pos k) (thetaSample_lt_pi k hk)

lemma cos_thetaSample_ne_zero (k : ℕ) (hk : k < 100) :
    Real.cos (thetaSample k) ≠ 0 := by
  rcases le_or_lt k 49 with hk49 | hk49
  · refine ne_of_gt (Real.cos_pos_of_mem_Ioo ⟨?_, ?_⟩)
    · have := thetaSample_pos k
      have := Real.pi_pos
      linarith
    · have h : (2 * (k : ℝ) + 1) < 100 := by
        exact_mod_cast (by omega : 2 * k + 1 < 100)
      have hprod : 0 < (100 - (2 * (k : ℝ) + 1)) * Real.pi :=
        mul_pos (by linarith) Real.pi_pos
      rw [thetaSample]
      nlinarith [Real.pi_pos]
  · refine ne_of_lt (Real.cos_neg_of_pi_div_two_lt_of_lt ?_ ?_)
    · have h : (100 : ℝ) < 2 * (k : ℝ) + 1 := by
        exact_mod_cast (by omega : 100 < 2 * k + 1)
      have hprod : 0 < ((2 * (k : ℝ) + 1) - 100) * Real.pi :=
        mul_pos (by linarith) Real.pi_pos
      rw [thetaSample]
      nlinarith [Real.pi_pos]
    · have := thetaSample_lt_pi k hk
      have := Real.pi_pos
      linarith

lemma theta24_mem : 0.7696 ≤ thetaSample 24 ∧ thetaSample 24 ≤ 0.7697 := by
  have hval : thetaSample 24 = 49 * Real.pi / 200 := by
    rw [thetaSample]
    norm_num
  rw [hval]
  have h1 := Real.pi_gt_d6
  have h2 := Real.pi_lt_d6
  constructor
  · linarith
  · linarith

lemma cos_theta24_le : Real.cos (thetaSample 24) ≤ 0.723 := by
  obtain ⟨hl, hu⟩ := theta24_mem
  have habs : |thetaSample 24| = thetaSample 24 := abs_of_nonneg (by linarith)
  have hx1 : |thetaSample 24| ≤ 1 := by rw [habs]; linarith
  have hb := Real.cos_bound hx1
  rw [habs] at hb
  have hcos_up : Real.cos (thetaSample 24) ≤
      1 - thetaSample 24 ^ 2 / 2 + thetaSample 24 ^ 4 * (5 / 96) := by
    have h := (abs_le.mp hb).2
    linarith
  have hx2l : (0.59228 : ℝ) ≤ thetaSample 24 ^ 2 := by nlinarith
  have hx2u : thetaSample 24 ^ 2 ≤ (0.59244 : ℝ) := by nlinarith
  have hx4u : thetaSample 24 ^ 4 ≤ (0.351 : ℝ) := by nlinarith [sq_nonneg (thetaSample 24)]
  linarith

lemma sin_theta24_le : Real.sin (thetaSample 24) ≤ 0.75 := by
  obtain ⟨hl, hu⟩ := theta24_mem
  have habs : |thetaSample 24| = thetaSample 24 := abs_of_nonneg (by linarith)
  have hx1 : |thetaSample 24| ≤ 1 := by rw [habs]; linarith
  have hb := Real.sin_bound hx1
  rw [habs] at hb
  have hsin_up : Real.sin (thetaSample 24) ≤
      (thetaSample 24 - thetaSample 24 ^ 3 / 6) + thetaSample 24 ^ 4 * (5 / 96) := by
    have h := (abs_le.mp hb).2
    linarith
  have hx2l : (0.59228 : ℝ) ≤ thetaSample 24 ^ 2 := by nlinarith
  have hx2u : thetaSample 24 ^ 2 ≤ (0.59244 : ℝ) := by nlinarith
  have hx3l : (0.4558 : ℝ) ≤ thetaSample 24 ^ 3 := by nlinarith
  have hx4u : thetaSample 24 ^ 4 ≤ (0.351 : ℝ) := by nlinarith [sq_nonneg (thetaSample 24)]
  linarith

lemma cos_theta24_pos : 0 < Real.cos (thetaSample 24) := by
  obtain ⟨hl, hu⟩ := theta24_mem
  refine Real.cos_pos_of_mem_Ioo ⟨?_, ?_⟩
  · have := Real.pi_pos
    linarith
  · have := Real.pi_gt_d6
    linarith

lemma sSample50_val : sSample 50 = 0.3 := by
  rw [sSample]
  norm_num

lemma chord_theta24_ge : 52.9 ≤ chord (thetaSample 24) (sSample 50) := by
  have hsn_pos : 0 < Real.sin (thetaSample 24) :=
    sin_thetaSample_pos 24 (by norm_num)
  have hc_pos := cos_theta24_pos
  have hc_le := cos_theta24_le
  have hsn_le := sin_theta24_le
  rw [sSample50_val, chord]
  refine le_trans ?_ (le_max_right _ _)
  have hhi1 : (80 : ℝ) / 3 ≤
      ((0.3 : ℝ) * Real.cos (thetaSample 24) + 20) / Real.sin (thetaSample 24) := by
    rw [le_div_iff₀ hsn_pos]
    nlinarith
  have hq : (27.3 : ℝ) ≤
      (20 - (0.3 : ℝ) * Real.sin (thetaSample 24)) / Real.cos (thetaSample 24) := by
    rw [le_div_iff₀ hc_pos]
    nlinarith
  have hlo1 : ((0.3 : ℝ) * Real.cos (thetaSample 24) - 20) / Real.sin (thetaSample 24) ≤
      -26.37 := by
    rw [div_le_iff₀ hsn_pos]
    nlinarith
  have hp : (-20 - (0.3 : ℝ) * Real.sin (thetaSample 24)) / Real.cos (thetaSample 24) ≤
      -27.3 := by
    rw [div_le_iff₀ hc_pos]
    nlinarith
  have hminhi : (80 : ℝ) / 3 ≤
      min (((0.3 : ℝ) * Real.cos (thetaSample 24) + 20) / Real.sin (thetaSample 24))
        (max ((-20 - (0.3 : ℝ) * Real.sin (thetaSample 24)) / Real.cos (thetaSample 24))
          ((20 - (0.3 : ℝ) * Real.sin (thetaSample 24)) / Real.cos (thetaSample 24))) :=
    le_min hhi1 (le_trans (by norm_num) (le_trans hq (le_max_right _ _)))
  have hmaxlo :
      max (((0.3 : ℝ) * Real.cos (thetaSample 24) - 20) / Real.sin (thetaSample 24))
        (min ((-20 - (0.3 : ℝ) * Real.sin (thetaSample 24)) / Real.cos (thetaSample 24))
          ((20 - (0.3 : ℝ) * Real.sin (thetaSample 24)) / Real.cos (thetaSample 24))) ≤
        -26.37 :=
    max_le hlo1 (le_trans (min_le_left _ _) (le_trans hp (by norm_num)))
  linarith

lemma projGrid_nonempty : (Finset.range 100 ×ˢ Finset.range 100).Nonempty :=
  ⟨(0, 0), by simp⟩

/-- Maximum entry of a projection-sample table over the 100 × 100 grid of
(angle index, detector index). -/
noncomputable def maxProjOf (f : ℕ → ℕ → ℝ) : ℝ :=
  (Finset.range 100 ×ˢ Finset.range 100).sup' projGrid_nonempty
    fun kj => f kj.1 kj.2

/-- Modelled from the spec: the sampled forward projection (out-of-place) of
the constant-one volume on `[-20, 20]²` in scenario 1 — the exact line
integral at each sampled angle and detector offset. -/
noncomputable def forwardProjectConstOne (k j : ℕ) : ℝ :=
  chord (thetaSample k) (sSample j)

/-- Modelled from the spec: the in-place variant writing into a
caller-supplied output buffer; the prior contents of the buffer are
overwritten and do not influence the result. -/
noncomputable def forwardProjectConstOneInto (buffer : ℕ → ℕ → ℝ)
    (k j : ℕ) : ℝ :=
  forwardProjectConstOne k j

/-- Maximum sampled projection value of scenario 1. -/
noncomputable def maxProjection : ℝ := maxProjOf forwardProjectConstOne

set_option maxRecDepth 8000 in
/-- C3: for the parallel 2D geometry with angular partition uniform over
`[0, π]` (100 samples) and detector partition uniform over `[-30, 30]`
(100 samples), forward projection of the constant-one volume over
`[-20, 20]²` has maximum value `40·√2` within the test's 1-decimal (10%
relative) tolerance — out-of-place and likewise when writing into any
caller-supplied output buffer. -/
theorem projector_const_one_max_value :
    |maxProjection - 40 * Real.sqrt 2| ≤ (1 / 10) * (40 * Real.sqrt 2) ∧
    ∀ buffer : ℕ → ℕ → ℝ,
      maxProjOf (forwardProjectConstOneInto buffer) = maxProjection := by
  constructor
  · have hs2u : Real.sqrt 2 < 1.415 := by
      nlinarith [Real.sq_sqrt (show (0 : ℝ) ≤ 2 by norm_num), Real.sqrt_nonneg 2]
    have hs2l : (0 : ℝ) ≤ Real.sqrt 2 := Real.sqrt_nonneg 2
    have hub : maxProjection ≤ 40 * Real.sqrt 2 := by
      rw [maxProjection, maxProjOf]
      apply Finset.sup'_le
      rintro ⟨k, j⟩ hkj
      rw [Finset.mem_product, Finset.mem_range, Finset.mem_range] at hkj
      exact chord_le_diag _ _ (sin_thetaSample_pos k hkj.1)
        (cos_thetaSample_ne_zero k hkj.1)
    have hlb : (52.9 : ℝ) ≤ maxProjection := by
      rw [maxProjection, maxProjOf, Finset.le_sup'_iff]
      exact ⟨(24, 50), by simp, chord_theta24_ge⟩
    rw [abs_le]
    constructor
    · linarith
    · linarith
  · intro buffer
    rfl

end OdlSpec
